import Mathlib

/-!
Shallow embedding of `src/stitch.py`: the 128-byte section header codec
(`Header.read` / `Header.write`), the streaming split pipeline (`chunkify`),
the streaming stitch pipeline (`dechunkify`), the section registry
(`register` / `check` inside `stitch_files`) and the per-group stitch loop.
Bytes are modelled as `Nat` values (below 256 wherever real bytes flow) and
byte strings as `List Nat`.  The zlib streaming compressor and decompressor
objects, which are external library collaborators, are modelled as abstract
stateful codecs (`StreamCodec`).
-/

namespace Stitch

/-! ## UTF-8, modelling Python `str.encode("utf-8")` and `bytes.decode("utf-8")` -/

/-- UTF-8 encoding of a single unicode scalar value. -/
def utf8EncodeChar (c : Char) : List Nat :=
  let n := c.toNat
  if n < 128 then [n]
  else if n < 2048 then [192 + n / 64, 128 + n % 64]
  else if n < 65536 then [224 + n / 4096, 128 + n / 64 % 64, 128 + n % 64]
  else [240 + n / 262144, 128 + n / 4096 % 64, 128 + n / 64 % 64, 128 + n % 64]

/-- UTF-8 encoding of a sequence of characters. -/
def utf8EncodeList : List Char → List Nat
  | [] => []
  | c :: cs => utf8EncodeChar c ++ utf8EncodeList cs

/-- Byte encoding of a string, as `name.encode("utf-8")` produces it. -/
def strEncode (s : String) : List Nat := utf8EncodeList s.data


/-- Is `b` a UTF-8 continuation byte. -/
abbrev cont (b : Nat) : Prop := 128 ≤ b ∧ b < 192

/-- Decode one UTF-8 scalar value from the front of the byte list, returning it
together with the remaining bytes.  Strict, as Python `bytes.decode("utf-8")`:
lone continuation bytes, overlong forms, surrogates, values beyond the unicode
range and truncated sequences are rejected. -/
def utf8DecodeOne : List Nat → Option (Char × List Nat)
  | [] => none
  | b :: rest =>
    if b < 128 then some (Char.ofNat b, rest)
    else if b < 194 then none
    else if b < 224 then
      match rest with
      | b1 :: rest1 =>
        if cont b1 then some (Char.ofNat ((b - 192) * 64 + (b1 - 128)), rest1)
        else none
      | [] => none
    else if b < 240 then
      match rest with
      | b1 :: b2 :: rest2 =>
        if cont b1 ∧ cont b2 then
          if (b - 224) * 4096 + (b1 - 128) * 64 + (b2 - 128) < 2048 ∨
              (55296 ≤ (b - 224) * 4096 + (b1 - 128) * 64 + (b2 - 128) ∧
                (b - 224) * 4096 + (b1 - 128) * 64 + (b2 - 128) < 57344) then none
          else some (Char.ofNat ((b - 224) * 4096 + (b1 - 128) * 64 + (b2 - 128)), rest2)
        else none
      | _ => none
    else if b < 245 then
      match rest with
      | b1 :: b2 :: b3 :: rest3 =>
        if cont b1 ∧ (cont b2 ∧ cont b3) then
          if (b - 240) * 262144 + (b1 - 128) * 4096 + (b2 - 128) * 64 + (b3 - 128) < 65536 ∨
              1114112 ≤ (b - 240) * 262144 + (b1 - 128) * 4096 + (b2 - 128) * 64 + (b3 - 128) then
            none
          else some
            (Char.ofNat ((b - 240) * 262144 + (b1 - 128) * 4096 + (b2 - 128) * 64 + (b3 - 128)),
              rest3)
        else none
      | _ => none
    else none

/-- Unfolding lemma for `utf8DecodeOne` on a nonempty list. -/
theorem utf8DecodeOne_cons (b : Nat) (rest : List Nat) :
    utf8DecodeOne (b :: rest) =
      (if b < 128 then some (Char.ofNat b, rest)
      else if b < 194 then none
      else if b < 224 then
        match rest with
        | b1 :: rest1 =>
          if cont b1 then some (Char.ofNat ((b - 192) * 64 + (b1 - 128)), rest1)
          else none
        | [] => none
      else if b < 240 then
        match rest with
        | b1 :: b2 :: rest2 =>
          if cont b1 ∧ cont b2 then
            if (b - 224) * 4096 + (b1 - 128) * 64 + (b2 - 128) < 2048 ∨
                (55296 ≤ (b - 224) * 4096 + (b1 - 128) * 64 + (b2 - 128) ∧
                  (b - 224) * 4096 + (b1 - 128) * 64 + (b2 - 128) < 57344) then none
            else some (Char.ofNat ((b - 224) * 4096 + (b1 - 128) * 64 + (b2 - 128)), rest2)
          else none
        | _ => none
      else if b < 245 then
        match rest with
        | b1 :: b2 :: b3 :: rest3 =>
          if cont b1 ∧ (cont b2 ∧ cont b3) then
            if (b - 240) * 262144 + (b1 - 128) * 4096 + (b2 - 128) * 64 + (b3 - 128) < 65536 ∨
                1114112 ≤ (b - 240) * 262144 + (b1 - 128) * 4096 + (b2 - 128) * 64 + (b3 - 128) then
              none
            else some
              (Char.ofNat ((b - 240) * 262144 + (b1 - 128) * 4096 + (b2 - 128) * 64 + (b3 - 128)),
                rest3)
          else none
        | _ => none
      else none) := rfl

/-- Decode a whole byte list; the fuel bounds the number of decoded characters
and `l.length` is always enough since every scalar consumes at least one byte. -/
def utf8DecodeF : Nat → List Nat → Option (List Char)
  | _, [] => some []
  | 0, _ :: _ => none
  | fuel + 1, b :: rest =>
    match utf8DecodeOne (b :: rest) with
    | none => none
    | some (c, rest1) => (utf8DecodeF fuel rest1).map (fun cs => c :: cs)

/-- Full strict UTF-8 decode of a byte list (Python `bytes.decode("utf-8")`),
`none` modelling the raised `UnicodeDecodeError`. -/
def utf8Decode (l : List Nat) : Option (List Char) := utf8DecodeF l.length l

theorem char_valid_nat (c : Char) :
    c.toNat < 55296 ∨ (57343 < c.toNat ∧ c.toNat < 1114112) := by
  have h := c.valid
  have e : c.toNat = c.val.toNat := rfl
  rcases h with h | ⟨h1, h2⟩
  · exact Or.inl (by omega)
  · exact Or.inr ⟨by omega, by omega⟩

theorem char_not_surrogate (c : Char) :
    c.toNat < 55296 ∨ 57344 ≤ c.toNat := by
  rcases char_valid_nat c with h | ⟨h1, _⟩
  · exact Or.inl h
  · exact Or.inr (by omega)

theorem char_lt (c : Char) : c.toNat < 1114112 := by
  rcases char_valid_nat c with h | ⟨_, h⟩
  · omega
  · exact h

/-- Decoding the encoding of one character consumes exactly that character. -/
theorem utf8DecodeOne_encodeChar (c : Char) (rest : List Nat) :
    utf8DecodeOne (utf8EncodeChar c ++ rest) = some (c, rest) := by
  have hlt := char_lt c
  have hsur := char_not_surrogate c
  simp only [utf8EncodeChar]
  by_cases h1 : c.toNat < 128
  · rw [if_pos h1]
    simp only [List.cons_append, List.nil_append]
    rw [utf8DecodeOne_cons, if_pos h1, Char.ofNat_toNat]
  · by_cases h2 : c.toNat < 2048
    · rw [if_neg h1, if_pos h2]
      simp only [List.cons_append, List.nil_append]
      rw [utf8DecodeOne_cons]
      rw [if_neg (by omega), if_neg (by omega), if_pos (by omega)]
      simp only [if_pos (show cont (128 + c.toNat % 64) by constructor <;> omega)]
      have hn : (192 + c.toNat / 64 - 192) * 64 + (128 + c.toNat % 64 - 128) = c.toNat := by omega
      rw [hn, Char.ofNat_toNat]
    · by_cases h3 : c.toNat < 65536
      · rw [if_neg h1, if_neg h2, if_pos h3]
        simp only [List.cons_append, List.nil_append]
        rw [utf8DecodeOne_cons]
        rw [if_neg (by omega), if_neg (by omega), if_neg (by omega), if_pos (by omega)]
        simp only [if_pos (show cont (128 + c.toNat / 64 % 64) ∧ cont (128 + c.toNat % 64) by
          refine ⟨⟨by omega, by omega⟩, ⟨by omega, by omega⟩⟩)]
        have hn : (224 + c.toNat / 4096 - 224) * 4096 + (128 + c.toNat / 64 % 64 - 128) * 64 +
            (128 + c.toNat % 64 - 128) = c.toNat := by omega
        rw [hn]
        rw [if_neg (by omega), Char.ofNat_toNat]
      · rw [if_neg h1, if_neg h2, if_neg h3]
        simp only [List.cons_append, List.nil_append]
        rw [utf8DecodeOne_cons]
        rw [if_neg (by omega), if_neg (by omega), if_neg (by omega), if_neg (by omega),
          if_pos (by omega)]
        simp only [if_pos (show cont (128 + c.toNat / 4096 % 64) ∧
            (cont (128 + c.toNat / 64 % 64) ∧ cont (128 + c.toNat % 64)) by
          refine ⟨⟨by omega, by omega⟩, ⟨by omega, by omega⟩, ⟨by omega, by omega⟩⟩)]
        have hn : (240 + c.toNat / 262144 - 240) * 262144 +
            (128 + c.toNat / 4096 % 64 - 128) * 4096 +
            (128 + c.toNat / 64 % 64 - 128) * 64 + (128 + c.toNat % 64 - 128) = c.toNat := by omega
        rw [hn]
        rw [if_neg (by omega), Char.ofNat_toNat]

theorem utf8EncodeChar_length_pos (c : Char) : 0 < (utf8EncodeChar c).length := by
  simp only [utf8EncodeChar]
  split_ifs <;> simp

/-- With enough fuel, decoding an encoded character list succeeds. -/
theorem utf8DecodeF_encodeList (cs : List Char) :
    ∀ fuel, (utf8EncodeList cs).length ≤ fuel →
      utf8DecodeF fuel (utf8EncodeList cs) = some cs := by
  induction cs with
  | nil =>
    intro fuel _
    cases fuel <;> rfl
  | cons c cs ih =>
    intro fuel hfuel
    have hpos := utf8EncodeChar_length_pos c
    rw [utf8EncodeList] at hfuel ⊢
    simp only [List.length_append] at hfuel
    obtain ⟨fuel', rfl⟩ : ∃ fuel', fuel = fuel' + 1 := by
      cases fuel
      · omega
      · exact ⟨_, rfl⟩
    obtain ⟨b, tail, htail⟩ : ∃ b tail, utf8EncodeChar c ++ utf8EncodeList cs = b :: tail := by
      cases h : utf8EncodeChar c ++ utf8EncodeList cs with
      | nil =>
        rcases List.append_eq_nil.mp h with ⟨h1, _⟩
        rw [h1] at hpos
        simp at hpos
      | cons b tail => exact ⟨b, tail, rfl⟩
    rw [htail, utf8DecodeF, ← htail, utf8DecodeOne_encodeChar]
    simp only [ih fuel' (by omega), Option.map_some']

/-- Round trip: decoding an encoded character list gives it back. -/
theorem utf8Decode_encodeList (cs : List Char) :
    utf8Decode (utf8EncodeList cs) = some cs :=
  utf8DecodeF_encodeList cs _ (Nat.le_refl _)


/-! ## Header codec (`class Header` in `src/stitch.py`, lines 210-256) -/

/-- Drop trailing zero bytes, as `buf.rstrip(b"\x00")`. -/
def rstripZeros (l : List Nat) : List Nat := (l.reverse.dropWhile (fun b => b == 0)).reverse

/-- Little-endian 4-byte encoding of an unsigned 32-bit value
(`struct.pack("<I", index)`). -/
def u32le (n : Nat) : List Nat := [n % 256, n / 256 % 256, n / 65536 % 256, n / 16777216 % 256]

/-- Little-endian 4-byte decode (`struct.unpack_from("<I", buf, 4)` applied to
the four bytes at offset 4). -/
def u32leGet (l : List Nat) : Nat :=
  l.getD 0 0 + 256 * l.getD 1 0 + 65536 * l.getD 2 0 + 16777216 * l.getD 3 0

/-- Decoded section file header: original file name, section index and the two
flag bits (`COMPRESSED` and `LAST`). -/
structure Header where
  name : String
  index : Nat
  comp : Bool
  last : Bool
deriving DecidableEq

/-- Total header size in bytes (`Header.SIZE`). -/
def Header.SIZE : Nat := 128

/-- The three magic bytes `b"BRS"`. -/
def Header.MAGIC : List Nat := [66, 82, 83]

/-- Decode a header from a buffer (`Header.read`).  `Except.error` models the
raised `ValueError`.  The flag check `flags & ~(FLAG_LAST | FLAG_COMP)` is
nonzero exactly when `4 ≤ flags`, and the two flag extractions
`(flags & FLAG_COMP) > 0` and `(flags & FLAG_LAST) > 0` are written with
`Nat` bitwise-and. -/
def Header.read (buf : List Nat) : Except String Header :=
  if buf.length ≠ Header.SIZE then .error ("header must be 128B")
  else if buf.take 3 ≠ Header.MAGIC then .error ("incorrect magic number")
  else if 4 ≤ buf.getD 3 0 then .error ("invalid flags")
  else
    match utf8Decode (rstripZeros (buf.drop 8)) with
    | none => .error ("invalid utf-8 in name")
    | some cs =>
      .ok ⟨⟨cs⟩, u32leGet ((buf.drop 4).take 4),
        decide (buf.getD 3 0 &&& 2 ≠ 0), decide (buf.getD 3 0 &&& 1 ≠ 0)⟩

/-- Encode a header into its 128-byte form (`Header.write`): magic, flag byte,
little-endian index, then the UTF-8 name truncated to 120 bytes and padded
with zeros (`.encode("utf-8")[:NAMESZ].ljust(NAMESZ, b"\x00")`). -/
def Header.write (h : Header) : List Nat :=
  Header.MAGIC ++ [(if h.comp then 2 else 0) + (if h.last then 1 else 0)] ++ u32le h.index ++
    ((strEncode h.name).take 120 ++
      List.replicate (120 - ((strEncode h.name).take 120).length) 0)


theorem dropWhile_zeros (k : Nat) (r : List Nat) :
    List.dropWhile (fun b => b == 0) (List.replicate k 0 ++ r) =
      List.dropWhile (fun b => b == 0) r := by
  induction k with
  | zero => rfl
  | succ k ih => simp [List.replicate_succ, ih]

/-- Trailing zero padding is invisible to `rstrip`. -/
theorem rstripZeros_append_replicate (l : List Nat) (k : Nat) :
    rstripZeros (l ++ List.replicate k 0) = rstripZeros l := by
  unfold rstripZeros
  rw [List.reverse_append, List.reverse_replicate, dropWhile_zeros]


/-- Claim C6: `Header.read` fails exactly when the buffer length is not 128, or
the first three bytes are not the magic `b"BRS"`, or a flag bit beyond the two
defined ones (`LAST` = bit 0, `COMPRESSED` = bit 1) is set, or the name bytes
after stripping the trailing zero padding are not valid UTF-8; on every other
buffer it succeeds and returns a header. -/
theorem c6_read_malformed_iff (buf : List Nat) :
    (Header.read buf).isOk = true ↔
      (buf.length = 128 ∧ buf.take 3 = Header.MAGIC ∧ buf.getD 3 0 < 4 ∧
        (utf8Decode (rstripZeros (buf.drop 8))).isSome = true) := by
  unfold Header.read
  split_ifs with h1 h2 h3
  · simp only [Except.isOk, Except.toBool, Bool.false_eq_true, false_iff]
    rintro ⟨hl, -, -, -⟩
    exact h1 (by rw [hl]; rfl)
  · simp only [Except.isOk, Except.toBool, Bool.false_eq_true, false_iff]
    rintro ⟨-, hm, -, -⟩
    exact h2 hm
  · simp only [Except.isOk, Except.toBool, Bool.false_eq_true, false_iff]
    rintro ⟨-, -, hf, -⟩
    omega
  · cases hdec : utf8Decode (rstripZeros (buf.drop 8)) with
    | none =>
      simp only [Except.isOk, Except.toBool, Bool.false_eq_true, false_iff]
      rintro ⟨-, -, -, hs⟩
      simp at hs
    | some cs =>
      simp only [Except.isOk, Except.toBool, true_iff]
      refine ⟨?_, not_not.mp h2, by omega, rfl⟩
      have := not_not.mp h1
      simpa [Header.SIZE] using this


/-- Claim C3 does not hold for every name; amended: for every index below `2^32`
and both flags, and every name whose UTF-8 encoding fits the 120-byte name field
and does not end in a zero byte, decoding the encoding reproduces the header
exactly.  (Names with trailing NUL characters come back with them stripped, and
names longer than 120 bytes are truncated, possibly making the decode fail when
the cut splits a character.) -/
theorem c3_header_roundtrip_amended (name : String) (i : Nat) (c l : Bool)
    (hi : i < 4294967296)
    (hfit : (strEncode name).length ≤ 120)
    (hnz : rstripZeros (strEncode name) = strEncode name) :
    Header.read (Header.write ⟨name, i, c, l⟩) = .ok ⟨name, i, c, l⟩ := by
  obtain ⟨data⟩ := name
  have htake : (strEncode ⟨data⟩).take 120 = strEncode ⟨data⟩ :=
    List.take_of_length_le hfit
  have hflag : ((if c then 2 else 0) + (if l then 1 else 0) : Nat) < 4 := by
    cases c <;> cases l <;> decide
  have hcomp : decide (((if c then 2 else 0) + (if l then 1 else 0) : Nat) &&& 2 ≠ 0) = c := by
    cases c <;> cases l <;> decide
  have hlast : decide (((if c then 2 else 0) + (if l then 1 else 0) : Nat) &&& 1 ≠ 0) = l := by
    cases c <;> cases l <;> decide
  simp only [Header.write, Header.MAGIC, u32le, htake]
  simp only [List.cons_append, List.nil_append, List.append_assoc]
  unfold Header.read
  rw [if_neg, if_neg, if_neg]
  · have hname : utf8Decode (rstripZeros (List.drop 8 (66 :: 82 :: 83 ::
        ((if c then 2 else 0) + (if l then 1 else 0)) :: i % 256 :: i / 256 % 256 ::
        i / 65536 % 256 :: i / 16777216 % 256 ::
        (strEncode ⟨data⟩ ++ List.replicate (120 - (strEncode ⟨data⟩).length) 0)))) =
        some data := by
      simp only [List.drop_succ_cons, List.drop_zero]
      rw [rstripZeros_append_replicate, hnz]
      exact utf8Decode_encodeList data
    rw [hname]
    simp only [Except.ok.injEq, Header.mk.injEq]
    refine ⟨trivial, ?_, hcomp, hlast⟩
    simp only [List.drop_succ_cons, List.drop_zero, List.take_succ_cons, List.take_zero,
      u32leGet, List.getD_cons_zero, List.getD_cons_succ]
    omega
  · simp only [List.getD_cons_succ, List.getD_cons_zero]
    omega
  · simp only [List.take_succ_cons, List.take_zero, Header.MAGIC]
    intro h
    exact absurd rfl h
  · simp only [List.length_cons, List.length_append, List.length_replicate, Header.SIZE]
    omega


set_option maxRecDepth 8192 in
/-- Claim C3 as stated is false: the name "a\x00" fits the 120-byte capacity,
so the claim asserts the decoded name equals it, but `Header.read` strips the
trailing zero padding together with the legitimate trailing NUL byte and
returns the name "a". -/
theorem c3_header_roundtrip_counterexample :
    (Header.read (Header.write ⟨"a\x00", 0, false, false⟩)).toOption.map Header.name =
        some ("a") ∧
      ("a" : String) ≠ "a\x00" := by
  constructor
  · decide
  · decide

/-- Witness for the amended C3 at a concrete header. -/
theorem c3_header_roundtrip_witness :
    (7 < 4294967296 ∧ (strEncode ("ab.txt")).length ≤ 120 ∧
        rstripZeros (strEncode ("ab.txt")) = strEncode ("ab.txt")) ∧
      Header.read (Header.write ⟨"ab.txt", 7, true, false⟩) = .ok ⟨"ab.txt", 7, true, false⟩ :=
  ⟨⟨by decide, by decide, by decide⟩,
    c3_header_roundtrip_amended ("ab.txt") 7 true false (by decide) (by decide) (by decide)⟩


/-! ## Streaming split and stitch pipelines (`chunkify` / `dechunkify`,
`src/stitch.py` lines 261-319) -/

/-- The fixed read/write granularity of the Python code (`CHUNK = 50 << 20`). -/
def CHUNK : Nat := 52428800

/-- Abstract streaming transform, modelling the zlib `compressobj` and
`decompressobj` objects: `feed` is `compress`/`decompress` on one chunk and
`finish` is the final `flush`. -/
structure StreamCodec where
  State : Type
  init : State
  feed : State → List Nat → State × List Nat
  finish : State → List Nat

/-- The identity transform: bytes pass through unchanged and the flush is
empty.  The `compress=False` paths of `chunkify`/`dechunkify`, which copy the
chunk and never flush, behave exactly like running this codec. -/
def idCodec : StreamCodec :=
  ⟨Unit, (), fun s chunk => (s, chunk), fun _ => []⟩

/-- The `while len(data) > max_size` drain loop of `chunkify`: emit the first
`max_size` bytes as a block while more than `max_size` bytes are buffered.
The fuel bounds the iteration count; `data.length` is always enough because
every iteration removes `max_size ≥ 1` bytes (the pipeline is only ever run
with a positive payload capacity, since `main` rejects `size <= Header.SIZE`). -/
def drainF (S : Nat) : Nat → List Nat → List (List Nat) × List Nat
  | 0, data => ([], data)
  | fuel + 1, data =>
    if S < data.length ∧ 0 < S then
      let r := drainF S fuel (data.drop S)
      (data.take S :: r.1, r.2)
    else ([], data)

/-- Emitted full blocks and the remaining buffer of one drain loop. -/
def drain (S : Nat) (data : List Nat) : List (List Nat) × List Nat :=
  drainF S data.length data

/-- One read step of the split pipeline: feed the chunk to the compressor when
compression is on (`data += compressor.compress(chunk)`), otherwise pass the
chunk through unchanged (`data += chunk`). -/
def feedStep (cd : StreamCodec) (compress : Bool) (st : cd.State) (chunk : List Nat) :
    cd.State × List Nat :=
  if compress then cd.feed st chunk else (st, chunk)

/-- The final flush: `data += compressor.flush()` when compression is on,
nothing otherwise. -/
def flushOut (cd : StreamCodec) (compress : Bool) (st : cd.State) : List Nat :=
  if compress then cd.finish st else []

/-- Main loop of `chunkify`: read chunks until the source is exhausted (a
`file.read` returning `b""` ends the loop), feed each chunk through the
optional compressor, accumulate the output and drain full blocks.  Returns the
emitted blocks, the buffered remainder and the final codec state. -/
def chunkifyLoop (cd : StreamCodec) (compress : Bool) (S : Nat) :
    cd.State → List Nat → List (List Nat) → List (List Nat) × List Nat × cd.State
  | st, data, [] => ([], data, st)
  | st, data, chunk :: rest =>
    if chunk = [] then ([], data, st)
    else
      ((drain S (data ++ (feedStep cd compress st chunk).2)).1 ++
          (chunkifyLoop cd compress S (feedStep cd compress st chunk).1
            (drain S (data ++ (feedStep cd compress st chunk).2)).2 rest).1,
        (chunkifyLoop cd compress S (feedStep cd compress st chunk).1
          (drain S (data ++ (feedStep cd compress st chunk).2)).2 rest).2.1,
        (chunkifyLoop cd compress S (feedStep cd compress st chunk).1
          (drain S (data ++ (feedStep cd compress st chunk).2)).2 rest).2.2)

/-- Buffer contents when the read loop of `chunkify` has finished and the
compressor has been flushed: the leftover data plus the flush output. -/
def chunkifyTail (cd : StreamCodec) (compress : Bool) (S : Nat)
    (chunks : List (List Nat)) : List Nat :=
  (chunkifyLoop cd compress S cd.init [] chunks).2.1 ++
    flushOut cd compress (chunkifyLoop cd compress S cd.init [] chunks).2.2

/-- All the full-size blocks `chunkify` emits with `last=False`: those of the
read loop plus those of the post-flush drain loop. -/
def chunkifyEms (cd : StreamCodec) (compress : Bool) (S : Nat)
    (chunks : List (List Nat)) : List (List Nat) :=
  (chunkifyLoop cd compress S cd.init [] chunks).1 ++
    (drain S (chunkifyTail cd compress S chunks)).1

/-- The final block (`process(data[:max_size], True)`). -/
def chunkifyFin (cd : StreamCodec) (compress : Bool) (S : Nat)
    (chunks : List (List Nat)) : List Nat :=
  (drain S (chunkifyTail cd compress S chunks)).2.take S

/-- The split pipeline `chunkify(file, compress, max_size, process)`.  The
input stream is the list of chunks successive `file.read(CHUNK)` calls return;
the result lists every `process(payload, last)` invocation in order. -/
def chunkify (cd : StreamCodec) (compress : Bool) (S : Nat)
    (chunks : List (List Nat)) : List (List Nat × Bool) :=
  (chunkifyEms cd compress S chunks).map (fun p => (p, false)) ++
    [(chunkifyFin cd compress S chunks, true)]

/-- The byte stream the transform alone produces over the consumed input:
per-chunk outputs in order, consuming chunks exactly as the `chunkify` read
loop does (stopping at an empty read). -/
def feedAll (cd : StreamCodec) (compress : Bool) :
    cd.State → List (List Nat) → cd.State × List Nat
  | st, [] => (st, [])
  | st, chunk :: rest =>
    if chunk = [] then (st, [])
    else
      ((feedAll cd compress (feedStep cd compress st chunk).1 rest).1,
        (feedStep cd compress st chunk).2 ++
          (feedAll cd compress (feedStep cd compress st chunk).1 rest).2)

/-- The transformed stream for a given input: all transform output plus flush
(the identity on the consumed input bytes when compression is off). -/
def transformed (cd : StreamCodec) (compress : Bool) (chunks : List (List Nat)) : List Nat :=
  (feedAll cd compress cd.init chunks).2 ++
    flushOut cd compress (feedAll cd compress cd.init chunks).1

/-- Cut a byte string into successive pieces of `n` bytes (the last piece may
be shorter), as repeated `f.read(n)` calls deliver it.  Structured on fuel;
`l.length` is always enough fuel for `n ≥ 1`. -/
def splitChunksF (n : Nat) : Nat → List Nat → List (List Nat)
  | _, [] => []
  | 0, _ :: _ => []
  | fuel + 1, x :: xs => (x :: xs).take n :: splitChunksF n fuel ((x :: xs).drop n)

/-- All pieces an `f.read(n)` loop yields for the byte string `l`. -/
def splitChunks (n : Nat) (l : List Nat) : List (List Nat) := splitChunksF n l.length l

/-- Feed a list of pieces through a codec, threading the state and
concatenating the outputs (the body of the `dechunkify` read loop). -/
def runFeeds (cd : StreamCodec) : cd.State → List (List Nat) → cd.State × List Nat
  | st, [] => (st, [])
  | st, p :: ps =>
    ((runFeeds cd (cd.feed st p).1 ps).1,
      (cd.feed st p).2 ++ (runFeeds cd (cd.feed st p).1 ps).2)

/-- Run a codec over pieces from its initial state and append the flush. -/
def runCodec (cd : StreamCodec) (pieces : List (List Nat)) : List Nat :=
  (runFeeds cd cd.init pieces).2 ++ cd.finish (runFeeds cd cd.init pieces).1

/-- The stitch pipeline `dechunkify(file, decompress, get_path)` applied to the
section payloads in index order (each payload is a section file body after the
128-byte header is skipped).  Every payload is read in `n`-byte pieces; with
decompression on, a single decompressor instance is fed every piece across all
payloads and flushed once at the end; with it off the pieces are written
through unchanged and nothing is flushed. -/
def dechunkify (dc : StreamCodec) (decompress : Bool) (n : Nat)
    (payloads : List (List Nat)) : List Nat :=
  if decompress then runCodec dc ((payloads.map (splitChunks n)).flatten)
  else ((payloads.map (splitChunks n)).flatten).flatten

/-- Modelled from the spec: the zlib streaming contract (design note §9, the
abstract stateful transform whose compressed output, reassembled in any
re-chunking, decompresses back to the exact input).  `zlib` itself is an
external library, not part of this repository. -/
def InversePair (cp dc : StreamCodec) : Prop :=
  ∀ input pieces : List (List Nat), (∀ chunk ∈ input, chunk ≠ []) →
    pieces.flatten = transformed cp true input → runCodec dc pieces = input.flatten

theorem drainF_flatten (S : Nat) :
    ∀ fuel data, data.length ≤ fuel →
      (drainF S fuel data).1.flatten ++ (drainF S fuel data).2 = data := by
  intro fuel
  induction fuel with
  | zero => intro data _; rfl
  | succ fuel ih =>
    intro data h
    rw [drainF]
    split_ifs with hc
    · simp only [List.flatten_cons, List.append_assoc]
      rw [ih (data.drop S) (by simp only [List.length_drop]; omega)]
      exact List.take_append_drop S data
    · rfl

theorem drainF_pieces (S : Nat) :
    ∀ fuel data p, p ∈ (drainF S fuel data).1 → p.length = S := by
  intro fuel
  induction fuel with
  | zero => intro data p hp; cases hp
  | succ fuel ih =>
    intro data p hp
    rw [drainF] at hp
    split_ifs at hp with hc
    · rcases List.mem_cons.mp hp with h | h
      · rw [h, List.length_take]
        omega
      · exact ih _ _ h
    · cases hp

theorem drainF_rest_le (S : Nat) (hS : 0 < S) :
    ∀ fuel data, data.length ≤ fuel → (drainF S fuel data).2.length ≤ S := by
  intro fuel
  induction fuel with
  | zero => intro data h; simpa using Nat.le_trans h (Nat.zero_le S)
  | succ fuel ih =>
    intro data h
    rw [drainF]
    split_ifs with hc
    · exact ih _ (by simp only [List.length_drop]; omega)
    · simp only []
      omega

theorem drainF_rest_ne (S : Nat) :
    ∀ fuel data, data ≠ [] → (drainF S fuel data).2 ≠ [] := by
  intro fuel
  induction fuel with
  | zero => intro data h; exact h
  | succ fuel ih =>
    intro data h
    rw [drainF]
    split_ifs with hc
    · refine ih _ ?_
      intro hd
      have := congrArg List.length hd
      simp only [List.length_drop, List.length_nil] at this
      omega
    · exact h

theorem drain_flatten (S : Nat) (data : List Nat) :
    (drain S data).1.flatten ++ (drain S data).2 = data :=
  drainF_flatten S data.length data (Nat.le_refl _)

theorem drain_pieces (S : Nat) (data : List Nat) :
    ∀ p ∈ (drain S data).1, p.length = S :=
  fun p hp => drainF_pieces S data.length data p hp

theorem drain_rest_le (S : Nat) (hS : 0 < S) (data : List Nat) :
    (drain S data).2.length ≤ S :=
  drainF_rest_le S hS data.length data (Nat.le_refl _)

theorem drain_rest_ne (S : Nat) (data : List Nat) (h : data ≠ []) :
    (drain S data).2 ≠ [] :=
  drainF_rest_ne S data.length data h


/-- The blocks a `chunkify` loop emits, together with its final buffer, carry
exactly the bytes the transform produced, and the loop ends in the transform
state `feedAll` computes. -/
theorem chunkifyLoop_spec (cd : StreamCodec) (compress : Bool) (S : Nat) :
    ∀ (chunks : List (List Nat)) (st : cd.State) (data : List Nat),
      (chunkifyLoop cd compress S st data chunks).1.flatten ++
          (chunkifyLoop cd compress S st data chunks).2.1 =
        data ++ (feedAll cd compress st chunks).2 ∧
      (chunkifyLoop cd compress S st data chunks).2.2 = (feedAll cd compress st chunks).1 := by
  intro chunks
  induction chunks with
  | nil =>
    intro st data
    exact ⟨by simp [chunkifyLoop, feedAll], rfl⟩
  | cons chunk rest ih =>
    intro st data
    rw [chunkifyLoop, feedAll]
    split_ifs with hc
    · exact ⟨by simp, rfl⟩
    · obtain ⟨ih1, ih2⟩ := ih (feedStep cd compress st chunk).1
        (drain S (data ++ (feedStep cd compress st chunk).2)).2
      refine ⟨?_, ih2⟩
      rw [List.flatten_append, List.append_assoc, ih1, ← List.append_assoc, drain_flatten,
        List.append_assoc]

theorem chunkifyLoop_pieces (cd : StreamCodec) (compress : Bool) (S : Nat) :
    ∀ chunks (st : cd.State) data p,
      p ∈ (chunkifyLoop cd compress S st data chunks).1 → p.length = S := by
  intro chunks
  induction chunks with
  | nil => intro st data p hp; cases hp
  | cons chunk rest ih =>
    intro st data p hp
    rw [chunkifyLoop] at hp
    split_ifs at hp with hc
    · cases hp
    · rcases List.mem_append.mp hp with h | h
      · exact drain_pieces S _ p h
      · exact ih _ _ p h

theorem chunkifyLoop_rest_ne (cd : StreamCodec) (compress : Bool) (S : Nat) :
    ∀ chunks (st : cd.State) data,
      data ≠ [] ∨ (feedAll cd compress st chunks).2 ≠ [] →
      (chunkifyLoop cd compress S st data chunks).2.1 ≠ [] := by
  intro chunks
  induction chunks with
  | nil =>
    intro st data h
    rcases h with h | h
    · exact h
    · exact absurd rfl h
  | cons chunk rest ih =>
    intro st data h
    rw [chunkifyLoop]
    rw [feedAll] at h
    split_ifs at h ⊢ with hc
    · rcases h with h | h
      · exact h
      · exact absurd rfl h
    · by_cases hdf : data ++ (feedStep cd compress st chunk).2 = []
      · rcases List.append_eq_nil.mp hdf with ⟨hd, hf⟩
        refine ih _ _ (Or.inr ?_)
        rcases h with h | h
        · exact absurd hd h
        · intro hrest
          exact h (by rw [hf, hrest]; rfl)
      · exact ih _ _ (Or.inl (drain_rest_ne S _ hdf))


/-- Concatenating every payload `chunkify` emits, in call order, yields exactly
the transformed stream. -/
theorem chunkify_payloads_flatten (cd : StreamCodec) (compress : Bool) (S : Nat)
    (hS : 0 < S) (chunks : List (List Nat)) :
    ((chunkify cd compress S chunks).map Prod.fst).flatten =
      transformed cd compress chunks := by
  obtain ⟨hsp, hst⟩ := chunkifyLoop_spec cd compress S chunks cd.init []
  have hfin : chunkifyFin cd compress S chunks = (drain S (chunkifyTail cd compress S chunks)).2 :=
    List.take_of_length_le (drain_rest_le S hS _)
  rw [chunkify, List.map_append, List.map_map]
  have hid : (Prod.fst ∘ fun p : List Nat => (p, false)) = id := rfl
  rw [hid, List.map_id]
  simp only [List.map_cons, List.map_nil, List.flatten_append, List.flatten_cons,
    List.flatten_nil, List.append_nil]
  rw [hfin]
  rw [chunkifyEms, List.flatten_append, List.append_assoc, drain_flatten]
  rw [chunkifyTail, ← List.append_assoc, hsp, hst]
  rw [List.nil_append, transformed]


/-- The final block is empty only when the whole transformed stream is empty. -/
theorem chunkifyFin_nil (cd : StreamCodec) (compress : Bool) (S : Nat)
    (chunks : List (List Nat)) (hS : 1 ≤ S)
    (h : chunkifyFin cd compress S chunks = []) :
    transformed cd compress chunks = [] := by
  obtain ⟨hsp, hst⟩ := chunkifyLoop_spec cd compress S chunks cd.init []
  have hfin : chunkifyFin cd compress S chunks =
      (drain S (chunkifyTail cd compress S chunks)).2 :=
    List.take_of_length_le (drain_rest_le S hS _)
  rw [hfin] at h
  have htail : chunkifyTail cd compress S chunks = [] := by
    by_contra htail
    exact drain_rest_ne S _ htail h
  rw [chunkifyTail] at htail
  rcases List.append_eq_nil.mp htail with ⟨hrest, hflush⟩
  have hfeed : (feedAll cd compress cd.init chunks).2 = [] := by
    by_contra hfeed
    exact chunkifyLoop_rest_ne cd compress S chunks cd.init [] (Or.inr hfeed) hrest
  rw [transformed, hfeed, ← hst, hflush]
  rfl

/-- Claim C2: every block `chunkify` emits before the final one is exactly `S`
bytes, the final block is at most `S` bytes, and the final block is empty only
when the whole transformed stream (compressed output plus flush, or the raw
input when compression is off) is itself empty. -/
theorem c2_payload_sizes (cd : StreamCodec) (compress : Bool) (S : Nat)
    (chunks : List (List Nat)) (hS : 1 ≤ S) :
    chunkify cd compress S chunks =
        (chunkifyEms cd compress S chunks).map (fun p => (p, false)) ++
          [(chunkifyFin cd compress S chunks, true)] ∧
      (∀ p ∈ chunkifyEms cd compress S chunks, p.length = S) ∧
      (chunkifyFin cd compress S chunks).length ≤ S ∧
      (chunkifyFin cd compress S chunks = [] → transformed cd compress chunks = []) := by
  refine ⟨rfl, ?_, ?_, chunkifyFin_nil cd compress S chunks hS⟩
  · intro p hp
    rcases List.mem_append.mp hp with hp | hp
    · exact chunkifyLoop_pieces cd compress S chunks cd.init [] p hp
    · exact drain_pieces S _ p hp
  · rw [chunkifyFin]
    simp only [List.length_take]
    omega

/-- Claim C9: `chunkify` calls its callback with `isLast=true` exactly once,
on the final call, for every input stream and read granularity. -/
theorem c9_single_last_flag (cd : StreamCodec) (compress : Bool) (S : Nat)
    (chunks : List (List Nat)) :
    (chunkify cd compress S chunks).map Prod.snd =
      List.replicate ((chunkify cd compress S chunks).length - 1) false ++ [true] := by
  rw [chunkify]
  simp only [List.map_append, List.map_map, List.map_cons, List.map_nil,
    List.length_append, List.length_map, List.length_cons, List.length_nil]
  have hid : (Prod.snd ∘ fun p : List Nat => (p, false)) = fun _ => false := rfl
  rw [hid, List.map_const']
  simp

/-- Claim C10: `chunkify` always makes at least one callback invocation, and on
the empty input with compression off it makes exactly one, emitting an empty
payload flagged as last. -/
theorem c10_at_least_one_call :
    (∀ (cd : StreamCodec) (compress : Bool) (S : Nat) (chunks : List (List Nat)),
        1 ≤ (chunkify cd compress S chunks).length) ∧
    (∀ (cd : StreamCodec) (S : Nat), chunkify cd false S [] = [([], true)]) := by
  constructor
  · intro cd compress S chunks
    rw [chunkify]
    simp
  · intro cd S
    simp [chunkify, chunkifyEms, chunkifyFin, chunkifyTail, chunkifyLoop, flushOut, drain, drainF]


theorem splitChunksF_flatten (n : Nat) (hn : 0 < n) :
    ∀ fuel l, l.length ≤ fuel → (splitChunksF n fuel l).flatten = l := by
  intro fuel
  induction fuel with
  | zero =>
    intro l h
    cases l with
    | nil => rfl
    | cons x xs => simp at h
  | succ fuel ih =>
    intro l h
    cases l with
    | nil => rfl
    | cons x xs =>
      rw [splitChunksF, List.flatten_cons]
      rw [ih ((x :: xs).drop n) (by simp only [List.length_drop]; simp at h ⊢; omega)]
      exact List.take_append_drop n (x :: xs)

/-- Reading a byte string in `n`-byte pieces loses nothing. -/
theorem splitChunks_flatten (n : Nat) (hn : 0 < n) (l : List Nat) :
    (splitChunks n l).flatten = l :=
  splitChunksF_flatten n hn l.length l (Nat.le_refl _)

/-- The pieces of all payloads, concatenated, are the concatenated payloads. -/
theorem pieces_flatten (n : Nat) (hn : 0 < n) (payloads : List (List Nat)) :
    ((payloads.map (splitChunks n)).flatten).flatten = payloads.flatten := by
  induction payloads with
  | nil => rfl
  | cons p ps ih =>
    rw [List.map_cons, List.flatten_cons, List.flatten_append, splitChunks_flatten n hn,
      ih, List.flatten_cons]

/-- With compression off the transform output is just the input, chunk for
chunk, as long as no chunk is empty (a real `file.read` loop never yields an
empty chunk before the end). -/
theorem feedAll_not_compress (cd : StreamCodec) :
    ∀ (chunks : List (List Nat)) (st : cd.State), (∀ c ∈ chunks, c ≠ []) →
      (feedAll cd false st chunks).2 = chunks.flatten := by
  intro chunks
  induction chunks with
  | nil => intro st _; rfl
  | cons chunk rest ih =>
    intro st hne
    rw [feedAll, if_neg (hne chunk (List.mem_cons_self _ _))]
    rw [List.flatten_cons]
    have : feedStep cd false st chunk = (st, chunk) := rfl
    rw [this]
    rw [ih _ (fun c hc => hne c (List.mem_cons_of_mem _ hc))]

theorem transformed_not_compress (cd : StreamCodec) (chunks : List (List Nat))
    (hne : ∀ c ∈ chunks, c ≠ []) :
    transformed cd false chunks = chunks.flatten := by
  rw [transformed, feedAll_not_compress cd chunks cd.init hne]
  simp [flushOut]

/-- The identity codec passes chunks through unchanged under either flag. -/
theorem feedAll_id (compress : Bool) :
    ∀ (chunks : List (List Nat)) (st : Unit), (∀ c ∈ chunks, c ≠ []) →
      (feedAll idCodec compress st chunks).2 = chunks.flatten := by
  intro chunks
  induction chunks with
  | nil => intro st _; rfl
  | cons chunk rest ih =>
    intro st hne
    rw [feedAll, if_neg (hne chunk (List.mem_cons_self _ _))]
    rw [List.flatten_cons]
    have : feedStep idCodec compress st chunk = (st, chunk) := by
      cases compress <;> rfl
    rw [this]
    rw [ih _ (fun c hc => hne c (List.mem_cons_of_mem _ hc))]

theorem transformed_id (compress : Bool) (chunks : List (List Nat))
    (hne : ∀ c ∈ chunks, c ≠ []) :
    transformed idCodec compress chunks = chunks.flatten := by
  rw [transformed, feedAll_id compress chunks _ hne]
  cases compress <;> simp [flushOut, idCodec]

theorem runFeeds_id : ∀ (pieces : List (List Nat)) (st : Unit),
    (runFeeds idCodec st pieces).2 = pieces.flatten := by
  intro pieces
  induction pieces with
  | nil => intro st; rfl
  | cons p ps ih =>
    intro st
    rw [runFeeds, List.flatten_cons]
    exact congrArg (p ++ ·) (ih _)

/-- Running the identity codec concatenates the pieces. -/
theorem runCodec_id (pieces : List (List Nat)) :
    runCodec idCodec pieces = pieces.flatten := by
  rw [runCodec, runFeeds_id]
  simp [idCodec]

/-- The identity pair satisfies the streaming inverse contract. -/
theorem inversePair_id : InversePair idCodec idCodec := by
  intro input pieces hne h
  rw [runCodec_id, h, transformed_id true input hne]


/-- Claim C1: splitting a byte stream with `chunkify` and replaying the
payloads in index order through `dechunkify` with the matching decompression
setting reproduces the input byte for byte.  The input is any sequence of
nonempty reads (including none at all, for the empty stream), the payload
capacity is any `S ≥ 1`, the stitch-side read granularity any `n ≥ 1`, and
with compression on the compressor/decompressor pair is any pair satisfying
the zlib streaming contract `InversePair`. -/
theorem c1_roundtrip (cp dc : StreamCodec) (compress : Bool) (S n : Nat)
    (hS : 1 ≤ S) (hn : 1 ≤ n) (chunks : List (List Nat))
    (hne : ∀ chunk ∈ chunks, chunk ≠ [])
    (hinv : compress = true → InversePair cp dc) :
    dechunkify dc compress n ((chunkify cp compress S chunks).map Prod.fst) =
      chunks.flatten := by
  have hjoin := chunkify_payloads_flatten cp compress S hS chunks
  have hpieces := pieces_flatten n hn ((chunkify cp compress S chunks).map Prod.fst)
  cases compress with
  | false =>
    rw [dechunkify]
    simp only [Bool.false_eq_true, if_false]
    rw [hpieces, hjoin, transformed_not_compress cp chunks hne]
  | true =>
    rw [dechunkify]
    simp only [if_true]
    exact hinv rfl chunks _ hne (by rw [hpieces, hjoin])

/-- Witness for C1 with compression on, using the identity codec pair. -/
theorem c1_roundtrip_witness :
    (1 ≤ 2 ∧ 1 ≤ 1 ∧ (∀ chunk ∈ [[7, 8, 9]], chunk ≠ ([] : List Nat)) ∧
        (true = true → InversePair idCodec idCodec)) ∧
      dechunkify idCodec true 1 ((chunkify idCodec true 2 [[7, 8, 9]]).map Prod.fst) =
        [[7, 8, 9]].flatten :=
  ⟨⟨by decide, by decide, by decide, fun _ => inversePair_id⟩,
    c1_roundtrip idCodec idCodec true 2 1 (by decide) (by decide) [[7, 8, 9]] (by decide)
      (fun _ => inversePair_id)⟩

/-- Witness for C2 at a concrete codec, capacity and input. -/
theorem c2_payload_sizes_witness :
    (1 ≤ 2) ∧
      (chunkify idCodec false 2 [[1, 2, 3]] =
          (chunkifyEms idCodec false 2 [[1, 2, 3]]).map (fun p => (p, false)) ++
            [(chunkifyFin idCodec false 2 [[1, 2, 3]], true)] ∧
        (∀ p ∈ chunkifyEms idCodec false 2 [[1, 2, 3]], p.length = 2) ∧
        (chunkifyFin idCodec false 2 [[1, 2, 3]]).length ≤ 2 ∧
        (chunkifyFin idCodec false 2 [[1, 2, 3]] = [] →
          transformed idCodec false [[1, 2, 3]] = [])) :=
  ⟨by decide, c2_payload_sizes idCodec false 2 [[1, 2, 3]] (by decide)⟩


/-! ## Section registry (`register` / `check` inside `stitch_files`,
`src/stitch.py` lines 449-528) -/

/-- One candidate section file as `register` sees it: its decoded header fields
plus the path it came from.  Paths are modelled as numeric identifiers. -/
structure Sec where
  name : String
  index : Nat
  comp : Bool
  last : Bool
  path : Nat
deriving DecidableEq

/-- An in-memory stitch group (`class Stitch`): `sections` maps a section index
to the path claiming it, `count` is the resolved section count (0 meaning no
`LAST` seen yet, as in the Python falsiness test `if not st.count`), and `comp`
is the compression flag the group was created with. -/
structure StitchGroup where
  sections : Nat → Option Nat
  count : Nat
  comp : Bool

/-- The `if header.last:` count update at the end of `register`: the first
`LAST` sets `count = index + 1`, later ones lower it to the minimum. -/
def updCount (s : StitchGroup) (e : Sec) : StitchGroup :=
  if e.last then
    ⟨s.sections, if s.count = 0 then e.index + 1 else min s.count (e.index + 1), s.comp⟩
  else s

/-- Record a section in a group (`st.sections[header.index] = path`) and run
the count update. -/
def insertSec (s : StitchGroup) (e : Sec) : StitchGroup :=
  updCount ⟨fun i => if i = e.index then some e.path else s.sections i, s.count, s.comp⟩ e

/-- Per-filename action of `register`: a fresh group is created for an unknown
filename; on a known filename the entry is dropped when its compression flag
differs from the group (`raise Exception("inconsistent section compression")`)
or its index is already taken (`raise Exception("duplicate section file")`) —
the user-facing `ask` prompt merely chooses between ignoring the entry and
aborting, so the dropped-entry state is the surviving one — and otherwise the
entry is inserted. -/
def regKey (o : Option StitchGroup) (e : Sec) : Option StitchGroup :=
  match o with
  | none => some (insertSec ⟨fun _ => none, 0, e.comp⟩ e)
  | some s =>
    if e.comp ≠ s.comp then some s
    else if (s.sections e.index).isSome then some s
    else some (insertSec s e)

/-- One `register(file)` call updating the `stitches` dict.  The Python code
keys the dict by `Path(header.name)`, and `pathlib` equality identifies
distinct name strings that denote the same path (for example "x" and "x/", or
"a//b" and "a/b").  The registry is therefore parameterised by the grouping
key function `key`: instantiating `key` with the `Path` normalisation gives
the program, and theorems quantified over every `key` cover it in
particular. -/
def registerOneK {K : Type} [DecidableEq K] (key : String → K)
    (st : K → Option StitchGroup) (e : Sec) : K → Option StitchGroup :=
  fun k => if k = key e.name then regKey (st (key e.name)) e else st k

/-- Scanning all candidates in order (`for path in paths: ... register(file)`),
starting from the empty `stitches` dict, grouped by `key`. -/
def registerAllK {K : Type} [DecidableEq K] (key : String → K) (es : List Sec) :
    K → Option StitchGroup :=
  es.foldl (registerOneK key) (fun _ => none)

/-- The registry restricted to keying by the raw name string.  It agrees with
the `Path`-keyed registry whenever, as in the single-group claims, all the
names involved are one and the same string. -/
def registerOne (st : String → Option StitchGroup) (e : Sec) :
    String → Option StitchGroup :=
  fun fname => if fname = e.name then regKey (st e.name) e else st fname

/-- Scanning all candidates in order with the raw name string as the key. -/
def registerAll (es : List Sec) : String → Option StitchGroup :=
  es.foldl registerOne (fun _ => none)

/-- String keying is the identity-key instance of the keyed registry. -/
theorem registerAll_eq_registerAllK (es : List Sec) : registerAll es = registerAllK id es :=
  rfl

/-- The completeness/excess check (`check(filename, stitch)`): the group is
stitchable iff a `LAST` was seen (`count ≠ 0`) and no index below `count` is
missing; excess entries at `index ≥ count` are then filtered out.  When there
are no excess entries the filter is extensionally the identity, so it is
applied unconditionally here. -/
def checkGroup (s : StitchGroup) : Bool × StitchGroup :=
  if s.count = 0 ∨ ∃ i < s.count, s.sections i = none then (false, s)
  else (true, ⟨fun i => if i < s.count then s.sections i else none, s.count, s.comp⟩)


/-- Claim C5 as stated is false: scanning the same two candidates in the two
possible orders gives different results.  Both sections carry the identical
name string "x", so every grouping key — in particular the `Path`
normalisation of the program, which the identity key reproduces exactly on
this input — puts them in one group; they disagree on the compression flag,
so whichever is scanned first fixes the group flag and the other is dropped,
and the group resolves to count 0 in one order (the dropped entry carried the
only `LAST`) and count 2 in the other. -/
theorem c5_order_counterexample :
    (registerAllK id [⟨"x", 0, false, false, 10⟩, ⟨"x", 1, true, true, 11⟩] ("x")).map
        StitchGroup.count ≠
      (registerAllK id [⟨"x", 1, true, true, 11⟩, ⟨"x", 0, false, false, 10⟩] ("x")).map
        StitchGroup.count := by
  decide

/-- Unpacked form of `insertSec`: sections gain the new entry, the count is
updated, the compression flag is kept. -/
theorem insertSec_def (s : StitchGroup) (e : Sec) :
    insertSec s e =
      ⟨fun i => if i = e.index then some e.path else s.sections i,
        if e.last then (if s.count = 0 then e.index + 1 else min s.count (e.index + 1))
        else s.count,
        s.comp⟩ := by
  cases hl : e.last <;> simp [insertSec, updCount, hl]

/-- Two count updates commute. -/
theorem cnt_comm (sc ai bi : Nat) :
    (if (if sc = 0 then ai + 1 else min sc (ai + 1)) = 0 then bi + 1
      else min (if sc = 0 then ai + 1 else min sc (ai + 1)) (bi + 1)) =
    (if (if sc = 0 then bi + 1 else min sc (bi + 1)) = 0 then ai + 1
      else min (if sc = 0 then bi + 1 else min sc (bi + 1)) (ai + 1)) := by
  by_cases hsc : sc = 0
  · rw [if_pos hsc, if_pos hsc, if_neg (Nat.succ_ne_zero ai), if_neg (Nat.succ_ne_zero bi),
      Nat.min_comm]
  · rw [if_neg hsc, if_neg hsc]
    have ha : min sc (ai + 1) ≠ 0 := by
      intro h
      rcases Nat.min_eq_zero_iff.mp h with h | h <;> omega
    have hb : min sc (bi + 1) ≠ 0 := by
      intro h
      rcases Nat.min_eq_zero_iff.mp h with h | h <;> omega
    rw [if_neg ha, if_neg hb, Nat.min_assoc, Nat.min_assoc, Nat.min_comm (ai + 1) (bi + 1)]

theorem insertSec_comm (s : StitchGroup) (a b : Sec) (h : a.index ≠ b.index) :
    insertSec (insertSec s a) b = insertSec (insertSec s b) a := by
  rw [insertSec_def, insertSec_def, insertSec_def, insertSec_def]
  simp only [StitchGroup.mk.injEq]
  refine ⟨?_, ?_, trivial⟩
  · funext i
    by_cases hia : i = a.index
    · by_cases hib : i = b.index
      · exact absurd (by omega : a.index = b.index) h
      · rw [if_neg hib, if_pos hia, if_pos hia]
    · by_cases hib : i = b.index
      · rw [if_pos hib, if_neg hia, if_pos hib]
      · rw [if_neg hib, if_neg hia, if_neg hia, if_neg hib]
  · cases ha : a.last <;> cases hb : b.last
    · simp [ha, hb]
    · simp [ha, hb]
    · simp [ha, hb]
    · simp only [ha, hb, eq_self_iff_true, if_true]
      exact cnt_comm s.count a.index b.index


theorem insertSec_comp (s : StitchGroup) (e : Sec) : (insertSec s e).comp = s.comp := by
  rw [insertSec_def]

theorem insertSec_sections (s : StitchGroup) (e : Sec) :
    (insertSec s e).sections = fun i => if i = e.index then some e.path else s.sections i := by
  rw [insertSec_def]

theorem regKey_none (e : Sec) :
    regKey none e = some (insertSec ⟨fun _ => none, 0, e.comp⟩ e) := rfl

theorem regKey_some (s : StitchGroup) (e : Sec) :
    regKey (some s) e =
      if e.comp ≠ s.comp then some s
      else if (s.sections e.index).isSome then some s
      else some (insertSec s e) := rfl

/-- Two `register` steps on the same filename commute when the entries do not
conflict (distinct indices and agreeing compression flags). -/
theorem regKey_comm (a b : Sec) (hab : a = b ∨ (a.index ≠ b.index ∧ a.comp = b.comp))
    (o : Option StitchGroup) :
    regKey (regKey o a) b = regKey (regKey o b) a := by
  rcases hab with rfl | ⟨hidx, hcomp⟩
  · rfl
  cases o with
  | none =>
    rw [regKey_none, regKey_none, regKey_some, regKey_some]
    rw [if_neg (by rw [insertSec_comp]; exact not_not_intro hcomp.symm),
      if_neg (by rw [insertSec_sections]; simp [Ne.symm hidx]),
      if_neg (by rw [insertSec_comp]; exact not_not_intro hcomp),
      if_neg (by rw [insertSec_sections]; simp [hidx])]
    rw [hcomp, insertSec_comm _ a b hidx]
  | some s =>
    rw [regKey_some, regKey_some]
    by_cases hca : a.comp = s.comp
    · have hcb : b.comp = s.comp := hcomp ▸ hca
      rw [if_neg (not_not_intro hca), if_neg (not_not_intro hcb)]
      by_cases hda : (s.sections a.index).isSome
      · rw [if_pos hda]
        by_cases hdb : (s.sections b.index).isSome
        · rw [if_pos hdb, regKey_some, regKey_some, if_neg (not_not_intro hcb),
            if_pos hdb, if_neg (not_not_intro hca), if_pos hda]
        · rw [if_neg hdb, regKey_some, regKey_some, if_neg (not_not_intro hcb), if_neg hdb,
            if_neg (by rw [insertSec_comp]; exact not_not_intro hca),
            if_pos (by rw [insertSec_sections]; simp only []; rw [if_neg hidx]; exact hda)]
      · rw [if_neg hda]
        by_cases hdb : (s.sections b.index).isSome
        · rw [if_pos hdb, regKey_some, regKey_some,
            if_neg (by rw [insertSec_comp]; exact not_not_intro hcb),
            if_pos
              (by rw [insertSec_sections]; simp only []; rw [if_neg (Ne.symm hidx)]; exact hdb),
            if_neg (not_not_intro hca), if_neg hda]
        · rw [if_neg hdb, regKey_some, regKey_some,
            if_neg (by rw [insertSec_comp]; exact not_not_intro hcb),
            if_neg
              (by rw [insertSec_sections]; simp only []; rw [if_neg (Ne.symm hidx)]; exact hdb),
            if_neg (by rw [insertSec_comp]; exact not_not_intro hca),
            if_neg (by rw [insertSec_sections]; simp only []; rw [if_neg hidx]; exact hda),
            insertSec_comm s a b hidx]
    · have hcb : ¬b.comp = s.comp := fun h => hca (hcomp ▸ h)
      rw [if_pos hca, if_pos hcb, regKey_some, regKey_some, if_pos hcb, if_pos hca]

/-- Two `register` calls commute whenever the two entries are not in conflict
under the grouping key: same entry, names mapped to different keys, or names
mapped to the same key with distinct indices and agreeing compression flags. -/
theorem registerOneK_comm {K : Type} [DecidableEq K] (key : String → K) (a b : Sec)
    (hab : a = b ∨ key a.name ≠ key b.name ∨ (a.index ≠ b.index ∧ a.comp = b.comp))
    (st : K → Option StitchGroup) :
    registerOneK key (registerOneK key st a) b = registerOneK key (registerOneK key st b) a := by
  by_cases hnn : key a.name = key b.name
  · have hkey : ∀ o, regKey (regKey o a) b = regKey (regKey o b) a := by
      rcases hab with rfl | hname | hrest
      · intro o; rfl
      · exact absurd hnn hname
      · exact regKey_comm a b (Or.inr hrest)
    funext k
    simp only [registerOneK, hnn, eq_self_iff_true, if_true]
    by_cases hf : k = key b.name
    · rw [if_pos hf, if_pos hf]
      exact hkey (st (key b.name))
    · rw [if_neg hf, if_neg hf, if_neg hf, if_neg hf]
  · have hname : key a.name ≠ key b.name := hnn
    funext k
    simp only [registerOneK]
    by_cases hfa : k = key a.name
    · have hfb : k ≠ key b.name := by rw [hfa]; exact hname
      rw [if_neg hfb, if_pos hfa, if_pos hfa, if_neg hname]
    · by_cases hfb : k = key b.name
      · rw [if_pos hfb, if_neg (Ne.symm hname), if_neg hfa, if_pos hfb]
      · rw [if_neg hfb, if_neg hfa, if_neg hfa, if_neg hfb]

/-- Claim C5 amended: scanning a collection of candidates in any order yields
the same registry state — hence the same group keys, resolved counts,
index-to-path mappings and `checkGroup` verdicts — provided the collection is
conflict-free with respect to the grouping key: no two sections whose names
map to the same key share an index, and such sections agree on the
compression flag.  The theorem holds for every key function, in particular
for the `Path(header.name)` normalisation the program groups by, so
candidates whose distinct name strings denote the same path (such as "x" and
"x/") fall under the conflict-freedom condition exactly as in the program. -/
theorem c5_order_independence_amended {K : Type} [DecidableEq K] (key : String → K)
    (es₁ es₂ : List Sec) (hperm : es₁.Perm es₂)
    (hcf : ∀ a ∈ es₁, ∀ b ∈ es₁, key a.name = key b.name →
      a = b ∨ (a.index ≠ b.index ∧ a.comp = b.comp)) :
    registerAllK key es₁ = registerAllK key es₂ := by
  rw [registerAllK, registerAllK]
  refine hperm.foldl_eq' ?_ _
  intro x hx y hy z
  refine registerOneK_comm key x y ?_ z
  by_cases hxy : key x.name = key y.name
  · rcases hcf x hx y hy hxy with h | h
    · exact Or.inl h
    · exact Or.inr (Or.inr h)
  · exact Or.inr (Or.inl hxy)

/-- A toy grouping key for the C5 witness that identifies the two spellings
"x" and "x/" of one path, standing in for the `Path` normalisation. -/
def slashKey : String → String :=
  fun s => if s = "x/" then ("x") else s

/-- Witness for the amended C5: two candidates whose distinct name strings
denote the same path (under `slashKey`), with distinct indices and agreeing
compression flags, scanned in both orders. -/
theorem c5_order_independence_witness :
    (([⟨"x", 0, false, true, 1⟩, ⟨"x/", 1, false, false, 2⟩] : List Sec).Perm
        [⟨"x/", 1, false, false, 2⟩, ⟨"x", 0, false, true, 1⟩] ∧
      (∀ a ∈ ([⟨"x", 0, false, true, 1⟩, ⟨"x/", 1, false, false, 2⟩] : List Sec),
        ∀ b ∈ ([⟨"x", 0, false, true, 1⟩, ⟨"x/", 1, false, false, 2⟩] : List Sec),
          slashKey a.name = slashKey b.name →
            a = b ∨ (a.index ≠ b.index ∧ a.comp = b.comp))) ∧
      registerAllK slashKey [⟨"x", 0, false, true, 1⟩, ⟨"x/", 1, false, false, 2⟩] =
        registerAllK slashKey [⟨"x/", 1, false, false, 2⟩, ⟨"x", 0, false, true, 1⟩] :=
  ⟨⟨by decide, by decide⟩,
    c5_order_independence_amended slashKey _ _ (by decide) (by decide)⟩

/-- The count update of `register` as a fold step over the plain count. -/
def cntUpd (c : Nat) (e : Sec) : Nat :=
  if e.last then (if c = 0 then e.index + 1 else min c (e.index + 1)) else c

theorem insertSec_count (s : StitchGroup) (e : Sec) :
    (insertSec s e).count = cntUpd s.count e := by
  cases hl : e.last <;> simp [insertSec_def, cntUpd, hl]

theorem cntUpd_ne_zero (c : Nat) (e : Sec) (h : c ≠ 0) : cntUpd c e ≠ 0 := by
  rw [cntUpd]
  split_ifs <;> omega

theorem cntUpd_le (c : Nat) (e : Sec) (h : c ≠ 0) : cntUpd c e ≤ c := by
  rw [cntUpd]
  split_ifs <;> omega

/-- Once the count is set it stays nonzero and never grows. -/
theorem cntUpd_fold_pos :
    ∀ (es : List Sec) (c : Nat), c ≠ 0 →
      es.foldl cntUpd c ≠ 0 ∧ es.foldl cntUpd c ≤ c := by
  intro es
  induction es with
  | nil => intro c h; exact ⟨h, Nat.le_refl c⟩
  | cons e rest ih =>
    intro c h
    rw [List.foldl_cons]
    obtain ⟨ih1, ih2⟩ := ih (cntUpd c e) (cntUpd_ne_zero c e h)
    exact ⟨ih1, Nat.le_trans ih2 (cntUpd_le c e h)⟩

/-- The resolved count never exceeds any asserted `index + 1`. -/
theorem cntUpd_fold_le :
    ∀ (es : List Sec) (c : Nat) (e : Sec), e ∈ es → e.last = true →
      es.foldl cntUpd c ≤ e.index + 1 := by
  intro es
  induction es with
  | nil => intro c e he; cases he
  | cons f rest ih =>
    intro c e he hl
    rw [List.foldl_cons]
    rcases List.mem_cons.mp he with rfl | hmem
    · have hv : cntUpd c e ≤ e.index + 1 := by
        rw [cntUpd, if_pos hl]
        split_ifs with h0
        · exact Nat.le_refl _
        · exact Nat.min_le_right _ _
      have hvz : cntUpd c e ≠ 0 := by
        rw [cntUpd, if_pos hl]
        split_ifs with h0
        · omega
        · intro hmin
          rcases Nat.min_eq_zero_iff.mp hmin with h | h <;> omega
      exact Nat.le_trans (cntUpd_fold_pos rest _ hvz).2 hv
    · exact ih _ e hmem hl

/-- The resolved count is either untouched or equals some asserted `index + 1`. -/
theorem cntUpd_fold_cases :
    ∀ (es : List Sec) (c : Nat),
      es.foldl cntUpd c = c ∨
        ∃ e ∈ es, e.last = true ∧ es.foldl cntUpd c = e.index + 1 := by
  intro es
  induction es with
  | nil => intro c; exact Or.inl rfl
  | cons f rest ih =>
    intro c
    rw [List.foldl_cons]
    rcases ih (cntUpd c f) with h | ⟨e, he, hl, hv⟩
    · rw [h, cntUpd]
      split_ifs with h1 h2
      · exact Or.inr ⟨f, List.mem_cons_self f rest, h1, rfl⟩
      · rw [Nat.min_def]
        split_ifs with h3
        · exact Or.inl rfl
        · exact Or.inr ⟨f, List.mem_cons_self f rest, h1, rfl⟩
      · exact Or.inl rfl
    · exact Or.inr ⟨e, List.mem_cons_of_mem f he, hl, hv⟩

/-- With at least one `LAST` assertion the count is set. -/
theorem cntUpd_fold_ne_zero :
    ∀ (es : List Sec) (c : Nat) (e : Sec), e ∈ es → e.last = true →
      es.foldl cntUpd c ≠ 0 := by
  intro es
  induction es with
  | nil => intro c e he; cases he
  | cons f rest ih =>
    intro c e he hl
    rw [List.foldl_cons]
    rcases List.mem_cons.mp he with rfl | hmem
    · refine (cntUpd_fold_pos rest _ ?_).1
      rw [cntUpd, if_pos hl]
      split_ifs with h0
      · omega
      · intro hmin
        rcases Nat.min_eq_zero_iff.mp hmin with h | h <;> omega
    · exact ih _ e hmem hl

/-- Earliest-LAST-wins: folding the count updates over any section list whose
minimum asserted index is `m` resolves the count to `m + 1`. -/
theorem cnt_fold_min (es : List Sec) (m : Nat)
    (hm : ∃ e ∈ es, e.last = true ∧ e.index = m)
    (hmin : ∀ e ∈ es, e.last = true → m ≤ e.index) :
    es.foldl cntUpd 0 = m + 1 := by
  obtain ⟨e0, he0, hl0, hi0⟩ := hm
  have hne := cntUpd_fold_ne_zero es 0 e0 he0 hl0
  rcases cntUpd_fold_cases es 0 with h | ⟨e, he, hl, hv⟩
  · exact absurd h hne
  · have h1 : es.foldl cntUpd 0 ≤ m + 1 := by
      have := cntUpd_fold_le es 0 e0 he0 hl0
      omega
    have h2 : m ≤ e.index := hmin e he hl
    omega


/-- When every scanned entry declares the same filename, the whole scan is a
fold of the per-key action over that single key. -/
theorem foldl_registerOne_key (fname : String) :
    ∀ (es : List Sec) (st : String → Option StitchGroup),
      (∀ e ∈ es, e.name = fname) →
      es.foldl registerOne st fname = es.foldl regKey (st fname) := by
  intro es
  induction es with
  | nil => intro st _; rfl
  | cons e rest ih =>
    intro st hall
    rw [List.foldl_cons, List.foldl_cons]
    rw [ih _ (fun x hx => hall x (List.mem_cons_of_mem e hx))]
    congr 1
    have hen : e.name = fname := hall e (List.mem_cons_self e rest)
    rw [registerOne, if_pos hen.symm, hen]

/-- Folding the per-key action over a conflict-free section list: the result
group keeps the compression flag, its count folds the count updates, and its
sections map holds exactly the first (hence only) entry at each index. -/
theorem regKey_fold :
    ∀ (es : List Sec) (s : StitchGroup),
      (∀ e ∈ es, e.comp = s.comp) →
      es.Pairwise (fun x y => x.index ≠ y.index) →
      (∀ e ∈ es, s.sections e.index = none) →
      ∃ s', es.foldl regKey (some s) = some s' ∧
        s'.comp = s.comp ∧
        s'.count = es.foldl cntUpd s.count ∧
        ∀ i, s'.sections i =
          (es.find? (fun e => e.index == i)).elim (s.sections i) (fun e => some e.path) := by
  intro es
  induction es with
  | nil =>
    intro s _ _ _
    exact ⟨s, rfl, rfl, rfl, fun i => rfl⟩
  | cons e rest ih =>
    intro s hcomp hpw hnone
    rw [List.foldl_cons]
    have h1 : regKey (some s) e = some (insertSec s e) := by
      rw [regKey_some, if_neg (not_not_intro (hcomp e (List.mem_cons_self e rest))),
        if_neg (by rw [hnone e (List.mem_cons_self e rest)]; simp)]
    rw [h1]
    have hpw' := List.pairwise_cons.mp hpw
    obtain ⟨s', hfold, hcomp', hcount', hsect'⟩ := ih (insertSec s e)
      (by
        intro f hf
        rw [insertSec_comp]
        exact hcomp f (List.mem_cons_of_mem e hf))
      hpw'.2
      (by
        intro f hf
        rw [insertSec_sections]
        simp only []
        rw [if_neg (Ne.symm (hpw'.1 f hf))]
        exact hnone f (List.mem_cons_of_mem e hf))
    refine ⟨s', hfold, by rw [hcomp', insertSec_comp], ?_, ?_⟩
    · rw [hcount', insertSec_count, List.foldl_cons]
    · intro i
      rw [hsect' i]
      by_cases hi : e.index = i
      · have hrest : rest.find? (fun f => f.index == i) = none := by
          rw [List.find?_eq_none]
          intro f hf
          simp only [beq_iff_eq]
          rw [← hi]
          exact Ne.symm (hpw'.1 f hf)
        rw [hrest, List.find?_cons_of_pos _ (by simp [hi])]
        simp only [Option.elim]
        rw [insertSec_sections]
        simp only []
        rw [if_pos hi.symm]
      · rw [List.find?_cons_of_neg _ (by simp [hi])]
        have : (insertSec s e).sections i = s.sections i := by
          rw [insertSec_sections]
          simp only []
          rw [if_neg (fun h => hi h.symm)]
        rw [this]


/-- Claim C4: for a conflict-free family of sections of one group in which the
minimum `LAST`-asserting index is `m`, registration resolves the count to
`m + 1` (earliest LAST wins), every scanned section is recorded at its index,
and — provided all indices up to `m` are present — the check passes, the
excess sections at indices `≥ m + 1` are excluded, and every index in
`[0, m + 1)` remains mapped, so the group is stitchable. -/
theorem c4_earliest_last_wins (es : List Sec) (fname : String) (m : Nat)
    (hname : ∀ e ∈ es, e.name = fname)
    (hcomp : ∀ a ∈ es, ∀ b ∈ es, a.comp = b.comp)
    (hidx : es.Pairwise fun a b => a.index ≠ b.index)
    (hm : ∃ e ∈ es, e.last = true ∧ e.index = m)
    (hmin : ∀ e ∈ es, e.last = true → m ≤ e.index)
    (hfull : ∀ i ≤ m, ∃ e ∈ es, e.index = i) :
    ∃ s, registerAll es fname = some s ∧
      s.count = m + 1 ∧
      (∀ e ∈ es, s.sections e.index = some e.path) ∧
      (checkGroup s).1 = true ∧
      (∀ i, m < i → (checkGroup s).2.sections i = none) ∧
      (∀ i, i ≤ m → ((checkGroup s).2.sections i).isSome = true) := by
  cases es with
  | nil =>
    obtain ⟨e0, he0, -⟩ := hm
    cases he0
  | cons ehead rest =>
    have hpw' := List.pairwise_cons.mp hidx
    have hkey : registerAll (ehead :: rest) fname = (ehead :: rest).foldl regKey none := by
      rw [registerAll]
      exact foldl_registerOne_key fname (ehead :: rest) _ hname
    rw [List.foldl_cons] at hkey
    rw [regKey_none] at hkey
    obtain ⟨s', hfold, hcomp', hcount', hsect'⟩ :=
      regKey_fold rest (insertSec ⟨fun _ => none, 0, ehead.comp⟩ ehead)
        (by
          intro f hf
          rw [insertSec_comp]
          exact hcomp f (List.mem_cons_of_mem ehead hf) ehead (List.mem_cons_self ehead rest))
        hpw'.2
        (by
          intro f hf
          rw [insertSec_sections]
          simp only []
          rw [if_neg (Ne.symm (hpw'.1 f hf))])
    rw [hfold] at hkey
    have hcount : s'.count = m + 1 := by
      rw [hcount', insertSec_count]
      rw [show rest.foldl cntUpd (cntUpd 0 ehead) = (ehead :: rest).foldl cntUpd 0 from rfl]
      exact cnt_fold_min (ehead :: rest) m hm hmin
    have hsec_all : ∀ e ∈ ehead :: rest, s'.sections e.index = some e.path := by
      intro e he
      rcases List.mem_cons.mp he with rfl | hmem
      · rw [hsect' e.index]
        have hrestnone : rest.find? (fun f => f.index == e.index) = none := by
          rw [List.find?_eq_none]
          intro f hf
          simp only [beq_iff_eq]
          exact Ne.symm (hpw'.1 f hf)
        rw [hrestnone]
        simp only [Option.elim]
        rw [insertSec_sections]
        simp
      · rw [hsect' e.index]
        have hfs : (rest.find? (fun f => f.index == e.index)).isSome := by
          rw [List.find?_isSome]
          exact ⟨e, hmem, by simp⟩
        obtain ⟨f, hf⟩ := Option.isSome_iff_exists.mp hfs
        have hfmem := List.mem_of_find?_eq_some hf
        have hfidx : f.index = e.index := by
          have := List.find?_some hf
          simpa using this
        have hfe : f = e := by
          by_contra hne
          exact (hpw'.2.forall (fun x y h => Ne.symm h) hfmem hmem hne) hfidx
        rw [hf]
        simp only [Option.elim]
        rw [hfe]
    have hnotmiss : ¬(s'.count = 0 ∨ ∃ i, i < s'.count ∧ s'.sections i = none) := by
      rintro (h0 | ⟨i, hi, hnone⟩)
      · omega
      · have him : i ≤ m := by omega
        obtain ⟨e, he, hei⟩ := hfull i him
        rw [← hei, hsec_all e he] at hnone
        cases hnone
    have hcheck : checkGroup s' =
        (true, ⟨fun i => if i < s'.count then s'.sections i else none, s'.count, s'.comp⟩) := by
      rw [checkGroup, if_neg]
      exact hnotmiss
    refine ⟨s', hkey, hcount, hsec_all, ?_, ?_, ?_⟩
    · rw [hcheck]
    · intro i hi
      rw [hcheck]
      simp only []
      rw [if_neg (by omega)]
    · intro i hi
      rw [hcheck]
      simp only []
      rw [if_pos (by omega)]
      obtain ⟨e, he, hei⟩ := hfull i hi
      rw [← hei, hsec_all e he]
      rfl


/-- A concrete group for the C4 witness: indices 0-8 for one file, `LAST`
asserted at indices 5 and 8 (the spec example). -/
def c4ExampleSecs : List Sec :=
  [⟨"x", 0, false, false, 100⟩, ⟨"x", 1, false, false, 101⟩, ⟨"x", 2, false, false, 102⟩,
    ⟨"x", 3, false, false, 103⟩, ⟨"x", 4, false, false, 104⟩, ⟨"x", 5, false, true, 105⟩,
    ⟨"x", 6, false, false, 106⟩, ⟨"x", 7, false, false, 107⟩, ⟨"x", 8, false, true, 108⟩]

/-- Witness for C4: with `LAST` at indices 5 and 8, the count resolves to 6 and
the group stays stitchable after dropping the excess indices 6-8. -/
theorem c4_earliest_last_wins_witness :
    ((∀ e ∈ c4ExampleSecs, e.name = "x") ∧
      (∀ a ∈ c4ExampleSecs, ∀ b ∈ c4ExampleSecs, a.comp = b.comp) ∧
      c4ExampleSecs.Pairwise (fun a b => a.index ≠ b.index) ∧
      (∃ e ∈ c4ExampleSecs, e.last = true ∧ e.index = 5) ∧
      (∀ e ∈ c4ExampleSecs, e.last = true → 5 ≤ e.index) ∧
      (∀ i ≤ 5, ∃ e ∈ c4ExampleSecs, e.index = i)) ∧
    (∃ s, registerAll c4ExampleSecs ("x") = some s ∧
      s.count = 5 + 1 ∧
      (∀ e ∈ c4ExampleSecs, s.sections e.index = some e.path) ∧
      (checkGroup s).1 = true ∧
      (∀ i, 5 < i → (checkGroup s).2.sections i = none) ∧
      (∀ i, i ≤ 5 → ((checkGroup s).2.sections i).isSome = true)) :=
  ⟨⟨by decide, by decide, by decide, by decide, by decide, by decide⟩,
    c4_earliest_last_wins c4ExampleSecs ("x") 5 (by decide) (by decide) (by decide) (by decide)
      (by decide) (by decide)⟩


/-! ## Per-group stitch loop of `stitch_files` (`src/stitch.py` lines 534-553) -/

/-- A validated group handed to the stitch loop: output filename, the section
paths in index order (`st.sections[0]`, ..., `st.sections[count - 1]`), and the
group compression flag. -/
structure SGroup where
  filename : String
  paths : List Nat
  comp : Bool
deriving DecidableEq

/-- Open and read the section files of one group in index order
(`open_for_read(path, ignorable=False)` then skipping the 128-byte header).
A missing file raises `StitchError` (the `error` call reporting a missing file),
modelled as `Except.error`; the filesystem is a map from path to contents. -/
def fetchSections (fs : Nat → Option (List Nat)) : List Nat → Except String (List (List Nat))
  | [] => .ok []
  | p :: ps =>
    match fs p with
    | none => .error ("file does not exist")
    | some content =>
      match fetchSections fs ps with
      | .error e => .error e
      | .ok rest => .ok (content.drop Header.SIZE :: rest)

/-- The `for filename, st in stitches.items():` loop of `stitch_files`: each
group is stitched through `dechunkify`; when a section is unavailable the
half-written output is deleted (`delete_paths(filename)`) and the error is
re-raised (`raise`), so the loop stops.  The result is the list of output
files left on disk, paired with the error that escaped, if any. -/
def runStitch (dc : StreamCodec) (fs : Nat → Option (List Nat)) :
    List SGroup → List (String × List Nat) × Option String
  | [] => ([], none)
  | g :: gs =>
    match fetchSections fs g.paths with
    | .error e => ([], some e)
    | .ok payloads =>
      ((g.filename, dechunkify dc g.comp CHUNK payloads) :: (runStitch dc fs gs).1,
        (runStitch dc fs gs).2)

/-- Claim C7 amended: when the sections of a group are unavailable, that stitch
fails after deleting its half-written output, and the raised error aborts the whole
loop — the groups after the failing one are not stitched (rather than
continuing, as the claim states).  The outputs left on disk are exactly those
of the groups stitched before the failure. -/
theorem c7_stitch_cleanup_amended (dc : StreamCodec) (fs : Nat → Option (List Nat))
    (gs₁ : List SGroup) (g : SGroup) (gs₂ : List SGroup)
    (h₁ : ∀ g' ∈ gs₁, (fetchSections fs g'.paths).isOk = true)
    (h₂ : (fetchSections fs g.paths).isOk = false) :
    (runStitch dc fs (gs₁ ++ g :: gs₂)).1.map Prod.fst = gs₁.map SGroup.filename ∧
      (runStitch dc fs (gs₁ ++ g :: gs₂)).2.isSome = true := by
  induction gs₁ with
  | nil =>
    rw [List.nil_append, runStitch]
    cases hf : fetchSections fs g.paths with
    | error e => exact ⟨rfl, rfl⟩
    | ok payloads => rw [hf] at h₂; cases h₂
  | cons g' rest ih =>
    have hg' : (fetchSections fs g'.paths).isOk = true :=
      h₁ g' (List.mem_cons_self g' rest)
    obtain ⟨payloads, hp⟩ : ∃ payloads, fetchSections fs g'.paths = .ok payloads := by
      cases hf : fetchSections fs g'.paths with
      | error e => rw [hf] at hg'; cases hg'
      | ok payloads => exact ⟨payloads, rfl⟩
    obtain ⟨ih1, ih2⟩ := ih (fun x hx => h₁ x (List.mem_cons_of_mem g' hx))
    rw [List.cons_append, runStitch, hp]
    constructor
    · rw [List.map_cons, List.map_cons, ih1]
    · exact ih2

/-- Filesystem for the C7 examples: only path 1 exists, holding a one-byte
section body after its header. -/
def c7ExampleFS : Nat → Option (List Nat) :=
  fun p => if p = 1 then some (List.replicate 128 0 ++ [7]) else none

/-- Claim C7 as stated is false: the first group references the missing path 0,
so its stitch fails and its output is deleted, but the raised error also stops
the loop — the second group, whose single section (path 1) is present and
readable, is never stitched. -/
theorem c7_stitch_abort_counterexample :
    (runStitch idCodec c7ExampleFS [⟨"bad", [0], false⟩, ⟨"good", [1], false⟩]).1 = [] ∧
      (fetchSections c7ExampleFS [1]).isOk = true := by
  constructor
  · rfl
  · decide

/-- Witness for the amended C7: one good group before the failing one. -/
theorem c7_stitch_cleanup_witness :
    ((∀ g' ∈ ([⟨"good", [1], false⟩] : List SGroup),
        (fetchSections c7ExampleFS g'.paths).isOk = true) ∧
      (fetchSections c7ExampleFS (⟨"bad", [0], false⟩ : SGroup).paths).isOk = false) ∧
    ((runStitch idCodec c7ExampleFS
          ([⟨"good", [1], false⟩] ++ ⟨"bad", [0], false⟩ :: [])).1.map Prod.fst =
        ([⟨"good", [1], false⟩] : List SGroup).map SGroup.filename ∧
      (runStitch idCodec c7ExampleFS
          ([⟨"good", [1], false⟩] ++ ⟨"bad", [0], false⟩ :: [])).2.isSome = true) :=
  ⟨⟨by decide, by decide⟩,
    c7_stitch_cleanup_amended idCodec c7ExampleFS [⟨"good", [1], false⟩] ⟨"bad", [0], false⟩ []
      (by decide) (by decide)⟩


/-! ## Name scope of the `split_file` interrupt cleanup
(`src/stitch.py` lines 368-401) -/

/-- The local names bound in `split_file` by the time its `except:` cleanup
handler can run (parameters plus assignments; lines 324-395).  With
`nest=True` the sections directory is bound as `dirpath` (line 342); with
`nest=False` the directory-scan names are bound instead (lines 347-360). -/
def splitFileLocals (nest : Bool) : List String :=
  ["path", "size", "nest", "there", "compress", "delete_original", "only_valid_windows",
    "validate_filenames", "filename", "stem", "makepath", "nameof", "index", "section_paths",
    "process"] ++
    (if nest then ["dirpath"] else ["matching_section_file", "parent", "matching"])

/-- The module-level names of `src/stitch.py` (imports and top-level
definitions), the fallback scope for a name not bound locally.  Python
builtins define no name `dirname` either. -/
def stitchModuleNames : List String :=
  ["argparse", "shutil", "struct", "sys", "zlib", "dataclass", "Path", "singleton", "ask",
    "StitchError", "error", "esc", "pathlist", "validate_filename", "unique_paths",
    "delete_paths", "ensure_empty", "create_empty_dir", "open_for_write", "NoExiste",
    "NO_EXISTE", "open_for_read", "EXT", "Header", "CHUNK", "chunkify", "dechunkify",
    "split_file", "stitch_files", "StitchHelpFormatter", "StitchArgumentParser", "parse_size",
    "main"]

/-- The name the nest-mode cleanup dereferences: line 398 reads
`delete_paths(dirname)`. -/
def nestCleanupName : String := "dirname"

/-- Claim C8 meets a code bug: the nest-mode interrupt cleanup references
`dirname`, a name bound neither in `split_file` (the directory is bound as
`dirpath`) nor at module level, so the handler raises `NameError` instead of
deleting the already-written section files. -/
theorem c8_cleanup_name_unbound :
    nestCleanupName ∉ splitFileLocals true ∧ nestCleanupName ∉ stitchModuleNames := by
  decide

end Stitch
